import Mathlib

/-!
Shallow embedding of the R_Motors IVR path tracking core:
`webhook_server.py` (path store and step ingestion), `app.py`
(`get_ivr_label`, the path codec) and `ivr_database.py`
(`merge_with_call_data`).  Machine strings are Lean `String`s,
SQL NULL is `Option.none`, tables are lists of rows, and the
SQLite `CURRENT_TIMESTAMP` is an explicit `Nat` parameter.
-/

namespace RMotors

/-- The double-quote character `"` (ASCII 34), used by Python's
`digit_input.strip('"')`. -/
def dquote : Char := Char.ofNat 34

/-- The single-quote character `'` (ASCII 39), used by Python's
`digit_input.strip("'")`. -/
def squote : Char := Char.ofNat 39

/-- Drop every leading occurrence of `c` from a character list. -/
def dropLeadingChar (c : Char) : List Char → List Char
  | [] => []
  | x :: xs => if x = c then dropLeadingChar c xs else x :: xs

/-- Python `s.strip(c)` for a single strip character: remove all leading
and all trailing occurrences of `c`. -/
def stripChar (c : Char) (s : String) : String :=
  ⟨((dropLeadingChar c (dropLeadingChar c s.data).reverse)).reverse⟩

/-- The cleaning applied to `digit_input` in `webhook_server.py`:
`if digit_input: digit_input = digit_input.strip('"').strip("'")`.
`none` models Python `None`; the empty string is falsy so it is kept
as-is. -/
def cleanDigit : Option String → Option String
  | none => none
  | some d => if d = "" then some d else some (stripChar squote (stripChar dquote d))

/-- One row of the `ivr_paths` table (webhook_server.py `init_database`).
`timestamp` is the SQLite `DATETIME DEFAULT CURRENT_TIMESTAMP` column,
modelled as the `Nat` time at which the row was inserted. -/
structure PathRecord where
  call_sid : String
  from_number : Option String
  to_number : Option String
  language_choice : Option String
  state_choice : Option String
  service_choice : Option String
  model_choice : Option String
  hp_choice : Option String
  complete_path : Option String
  timestamp : Nat
deriving DecidableEq, Repr

/-- SQL `COALESCE(x, '')`. -/
def coalesce (o : Option String) : String := o.getD ""

/-- The `complete_path` expression of the final `UPDATE` statement in
`update_ivr_path`: the five choice columns joined with `-`, NULLs
rendered as empty segments. -/
def completePathOf (r : PathRecord) : String :=
  coalesce r.language_choice ++ "-" ++ coalesce r.state_choice ++ "-" ++
  coalesce r.service_choice ++ "-" ++ coalesce r.model_choice ++ "-" ++
  coalesce r.hp_choice

/-- The final `UPDATE ivr_paths SET complete_path = ...` of
`update_ivr_path`, applied to one row. -/
def recompute (r : PathRecord) : PathRecord :=
  { r with complete_path := some (completePathOf r) }

/-- The derivation invariant: the stored `complete_path` is exactly the
join of the five choice columns. -/
def PathInv (r : PathRecord) : Prop :=
  r.complete_path = some (completePathOf r)

instance (r : PathRecord) : Decidable (PathInv r) := by
  unfold PathInv; infer_instance

/-- The `UPDATE ivr_paths SET <step>_choice = ?` branch ladder of
`update_ivr_path`, applied to one row.  An unrecognised step name falls
through all branches and leaves the row unchanged, exactly as the Python
`if/elif` chain does. -/
def setChoice (step : String) (d : Option String) (r : PathRecord) : PathRecord :=
  if step = "language" then { r with language_choice := d }
  else if step = "state" then { r with state_choice := d }
  else if step = "service" then { r with service_choice := d }
  else if step = "model" then { r with model_choice := d }
  else if step = "hp" then { r with hp_choice := d }
  else r

/-- Read the choice column named by `step`. -/
def getChoice (step : String) (r : PathRecord) : Option String :=
  if step = "language" then r.language_choice
  else if step = "state" then r.state_choice
  else if step = "service" then r.service_choice
  else if step = "model" then r.model_choice
  else if step = "hp" then r.hp_choice
  else none

/-- The five step names of the IVR tree, in position order. -/
def stepNames : List String := ["language", "state", "service", "model", "hp"]

/-- `SELECT * FROM ivr_paths WHERE call_sid = ?` returned a row? -/
def hasCall (c : String) (st : List PathRecord) : Bool :=
  st.any (fun r => decide (r.call_sid = c))

/-- The row inserted by the `INSERT INTO ivr_paths` create branch of
`update_ivr_path` (with already-cleaned digit `d`); `complete_path`
starts NULL and is filled by the final `UPDATE`. -/
def freshRecord (t : Nat) (c step : String) (d fn tn : Option String) : PathRecord :=
  { call_sid := c, from_number := fn, to_number := tn,
    language_choice := if step = "language" then d else none,
    state_choice := if step = "state" then d else none,
    service_choice := if step = "service" then d else none,
    model_choice := if step = "model" then d else none,
    hp_choice := if step = "hp" then d else none,
    complete_path := none, timestamp := t }

/-- `update_ivr_path(call_sid, step_name, digit_input, from_number,
to_number)` from `webhook_server.py`, as a function on the `ivr_paths`
table.  `t` is the current time used for the insert default. -/
def update_ivr_path (t : Nat) (c step : String) (digit fn tn : Option String)
    (st : List PathRecord) : List PathRecord :=
  (if hasCall c st then
     st.map (fun r => if r.call_sid = c then setChoice step (cleanDigit digit) r else r)
   else
     st ++ [freshRecord t c step (cleanDigit digit) fn tn]).map
    (fun r => if r.call_sid = c then recompute r else r)

/-- One row of the raw `ivr_inputs` event log. -/
structure IVRInput where
  call_sid : String
  from_number : Option String
  to_number : Option String
  step_name : String
  digit_input : Option String
  exophone : Option String
  caller_circle : Option String
deriving DecidableEq, Repr

/-- `store_ivr_input` from `webhook_server.py`: clean the digit and
append one row to `ivr_inputs`. -/
def store_ivr_input (c step : String) (digit fn tn exo circle : Option String)
    (log : List IVRInput) : List IVRInput :=
  log ++ [{ call_sid := c, from_number := fn, to_number := tn, step_name := step,
            digit_input := cleanDigit digit, exophone := exo, caller_circle := circle }]

/-- The whole persistent state: the raw event log and the derived path
table. -/
structure Store where
  inputs : List IVRInput
  paths : List PathRecord
deriving DecidableEq, Repr

/-- The empty database. -/
def emptyStore : Store := { inputs := [], paths := [] }

/-- The `/webhook/ivr/<step_name>` handler `ivr_webhook` from
`webhook_server.py`.  `call_sid = none` models a request without a
`CallSid` parameter; the Python guard `if not call_sid` also rejects a
present-but-empty `CallSid`, so `some ""` is refused too (400 error,
nothing stored).  Otherwise the handler appends the raw event row and
folds the event into the path table.  The returned `Bool` is `true`
for the success response.  In the source `exophone` is read from the
same `To` parameter as `to_number`. -/
def ivr_webhook (t : Nat) (step : String)
    (call_sid digit fn tn circle : Option String) (st : Store) : Store × Bool :=
  match call_sid with
  | none => (st, false)
  | some c =>
    if c = "" then (st, false)
    else
      let inputs1 := store_ivr_input c step digit fn tn tn circle st.inputs
      let paths1 := update_ivr_path t c step digit fn tn st.paths
      ({ inputs := inputs1, paths := paths1 }, true)

/-- Python `s.split(c)` for a single-character separator, on character
lists: always returns at least one (possibly empty) group. -/
def splitChar (c : Char) : List Char → List (List Char)
  | [] => [[]]
  | x :: xs =>
    match splitChar c xs with
    | [] => [[]]
    | g :: gs => if x = c then [] :: g :: gs else (x :: g) :: gs

/-- Python `path.split('-')` as used by `get_ivr_label`. -/
def pySplit (c : Char) (s : String) : List String :=
  (splitChar c s.data).map (fun l => ⟨l⟩)

/-- `{'1': 'Hindi', '2': 'English'}.get(d, f'Lang-{d}')`. -/
def langLabel (d : String) : String :=
  if d = "1" then "Hindi" else if d = "2" then "English" else "Lang-" ++ d

/-- The state lookup of `get_ivr_label` with its `State-` fallback. -/
def stateLabel (d : String) : String :=
  if d = "1" then "Rajasthan" else if d = "2" then "MP"
  else if d = "3" then "Maharashtra" else if d = "4" then "Other State"
  else "State-" ++ d

/-- The service lookup of `get_ivr_label` with its `Service-` fallback. -/
def serviceLabel (d : String) : String :=
  if d = "1" then "Sell Machine" else if d = "2" then "Buy Old"
  else if d = "3" then "Buy New" else if d = "4" then "Finance"
  else if d = "5" then "Other Info" else if d = "9" then "Consultant"
  else "Service-" ++ d

/-- Position-3 lookup when `parts[2] == '2'` (Buy Old machines). -/
def buyOldModelLabel (d : String) : String :=
  if d = "1" then "2020+" else if d = "2" then "2018-2020"
  else if d = "3" then "2015-2017" else if d = "4" then "Before 2014"
  else "Model-" ++ d

/-- Position-3 lookup when `parts[2] == '1'` (Sell Machine). -/
def sellModelLabel (d : String) : String :=
  if d = "1" then "Before 2014" else if d = "2" then "2015-2017"
  else if d = "3" then "2018-2020" else if d = "4" then "2020+"
  else "Model-" ++ d

/-- Position-3 lookup when `parts[2] == '4'` (Finance). -/
def financeLabel (d : String) : String :=
  if d = "1" then "Refinance" else if d = "2" then "New Finance"
  else "Finance-" ++ d

/-- Position-4 lookup (horsepower). -/
def hpLabel (d : String) : String :=
  if d = "1" then "49 HP" else if d = "2" then "74 HP" else "HP-" ++ d

/-- The token list built by `get_ivr_label` from the split segments:
one block per `if len(parts) >= k` guard of the source. -/
def ivrLabels (parts : List String) : List String :=
  (if 1 ≤ parts.length then [langLabel (parts.getD 0 "")] else []) ++
  (if 2 ≤ parts.length then [stateLabel (parts.getD 1 "")] else []) ++
  (if 3 ≤ parts.length then [serviceLabel (parts.getD 2 "")] else []) ++
  (if 4 ≤ parts.length then
    (if parts.getD 2 "" = "2" then [buyOldModelLabel (parts.getD 3 "")]
     else if parts.getD 2 "" = "1" then [sellModelLabel (parts.getD 3 "")]
     else if parts.getD 2 "" = "4" then [financeLabel (parts.getD 3 "")]
     else [])
   else []) ++
  (if 5 ≤ parts.length ∧ parts.getD 2 "" = "2" ∧ parts.getD 3 "" = "1" then
    [hpLabel (parts.getD 4 "")]
   else [])

/-- Python `' → '.join(labels)`. -/
def joinArrow : List String → String
  | [] => ""
  | [x] => x
  | x :: y :: xs => x ++ " → " ++ joinArrow (y :: xs)

/-- `get_ivr_label(path)` from `app.py`: `none` models Python `None`;
`if not path` also catches the empty string. -/
def get_ivr_label (path : Option String) : String :=
  match path with
  | none => "No IVR"
  | some p =>
    if p = "" then "No IVR"
    else joinArrow (ivrLabels (pySplit (Char.ofNat 45) p))

/-- One externally supplied call row: its `CallSid` key plus all its
other columns, kept abstract as `data`. -/
structure CallRow (α : Type) where
  CallSid : String
  data : α
deriving DecidableEq, Repr

/-- One output row of `merge_with_call_data`: the call columns plus the
two derived columns `IVRPath` and `IVRSelections` (`none` models
pandas NaN). -/
structure MergedRow (α : Type) where
  CallSid : String
  data : α
  IVRPath : Option String
  IVRSelections : Option (List String)
deriving DecidableEq, Repr

/-- The list comprehension of `merge_with_call_data`: the choice values
that are not NaN, in step-position order. -/
def selectionsOf (r : PathRecord) : List String :=
  [r.language_choice, r.state_choice, r.service_choice,
   r.model_choice, r.hp_choice].filterMap id

/-- Build one merged row from a call row and its (optional) matching
path record: `IVRPath` is the joined `complete_path`; `IVRSelections`
is the non-NaN choices when `complete_path` is not NaN, else NaN. -/
def mergeRow {α : Type} (c : CallRow α) (m : Option PathRecord) : MergedRow α :=
  match m with
  | none => { CallSid := c.CallSid, data := c.data, IVRPath := none, IVRSelections := none }
  | some r =>
    { CallSid := c.CallSid, data := c.data, IVRPath := r.complete_path,
      IVRSelections := if r.complete_path.isSome then some (selectionsOf r) else none }

/-- The rows a pandas left merge produces for one left row: one
combined row per matching right row, or a single NaN-padded row when
nothing matches. -/
def rowsFor {α : Type} (c : CallRow α) (paths : List PathRecord) : List (MergedRow α) :=
  match paths.filter (fun r => decide (r.call_sid = c.CallSid)) with
  | [] => [mergeRow c none]
  | ms => ms.map (fun r => mergeRow c (some r))

/-- `IVRDatabase.merge_with_call_data` from `ivr_database.py`: when the
path table is empty the call rows just get NaN `IVRPath`/`IVRSelections`
columns; otherwise a left merge on `CallSid = call_sid` followed by the
derived-column computation. -/
def merge_with_call_data {α : Type} (calls : List (CallRow α))
    (paths : List PathRecord) : List (MergedRow α) :=
  if paths = [] then calls.map (fun c => mergeRow c none)
  else calls.flatMap (fun c => rowsFor c paths)

/-- One webhook step event, as consumed by the path store. -/
structure Event where
  t : Nat
  call_sid : String
  step_name : String
  digits : Option String
  from_number : Option String
  to_number : Option String
deriving DecidableEq, Repr

/-- Fold one event into the `ivr_paths` table. -/
def applyEvent (st : List PathRecord) (e : Event) : List PathRecord :=
  update_ivr_path e.t e.call_sid e.step_name e.digits e.from_number e.to_number st

/-- Fold a list of events into the `ivr_paths` table in order. -/
def applyEvents (es : List Event) (st : List PathRecord) : List PathRecord :=
  es.foldl applyEvent st

/-- The last event of the list whose step is `s`, if any. -/
def lastEventFor (s : String) : List Event → Option Event
  | [] => none
  | e :: es =>
    match lastEventFor s es with
    | some e' => some e'
    | none => if e.step_name = s then some e else none

/-- The digit the store would hold for step `s` after the events `es`:
the cleaned digit of the last event for that step, or unset. -/
def lastDigit (s : String) (es : List Event) : Option String :=
  match lastEventFor s es with
  | some e => cleanDigit e.digits
  | none => none

/-- The path string determined by a list of events: for each of the five
steps, the last-written cleaned digit at its fixed position, unset
steps as empty segments. -/
def joinLast (es : List Event) : String :=
  coalesce (lastDigit "language" es) ++ "-" ++ coalesce (lastDigit "state" es) ++ "-" ++
  coalesce (lastDigit "service" es) ++ "-" ++ coalesce (lastDigit "model" es) ++ "-" ++
  coalesce (lastDigit "hp" es)

/-- The `complete_path` stored for call `c` after folding `es` into an
empty table (`none` when no record exists). -/
def finalCompletePath (c : String) (es : List Event) : Option (Option String) :=
  ((applyEvents es []).find? (fun r => decide (r.call_sid = c))).map
    (fun r => r.complete_path)

/-- The effect of one event on a single existing record: set the choice
column, then recompute `complete_path`. -/
def applyToRecord (r : PathRecord) (e : Event) : PathRecord :=
  recompute (setChoice e.step_name (cleanDigit e.digits) r)

/-- The record created by the first event for a call. -/
def initRecord (e : Event) : PathRecord :=
  freshRecord e.t e.call_sid e.step_name (cleanDigit e.digits) e.from_number e.to_number

/-! ### Basic record lemmas -/

lemma completePathOf_recompute (r : PathRecord) :
    completePathOf (recompute r) = completePathOf r := rfl

lemma recompute_call_sid (r : PathRecord) :
    (recompute r).call_sid = r.call_sid := rfl

lemma recompute_timestamp (r : PathRecord) :
    (recompute r).timestamp = r.timestamp := rfl

lemma setChoice_call_sid (s : String) (d : Option String) (r : PathRecord) :
    (setChoice s d r).call_sid = r.call_sid := by
  unfold setChoice; split_ifs <;> rfl

lemma setChoice_timestamp (s : String) (d : Option String) (r : PathRecord) :
    (setChoice s d r).timestamp = r.timestamp := by
  unfold setChoice; split_ifs <;> rfl

lemma pathInv_recompute (r : PathRecord) : PathInv (recompute r) := rfl

lemma recompute_recompute (r : PathRecord) :
    recompute (recompute r) = recompute r := rfl

lemma applyToRecord_call_sid (r : PathRecord) (e : Event) :
    (applyToRecord r e).call_sid = r.call_sid := by
  simp [applyToRecord, recompute_call_sid, setChoice_call_sid]

/-- Invariant preservation: one `update_ivr_path` call keeps every row's
`complete_path` equal to the join of its choice columns. -/
lemma pathInv_update (t : Nat) (c step : String) (digit fn tn : Option String)
    (st : List PathRecord) (h : ∀ r ∈ st, PathInv r) :
    ∀ r ∈ update_ivr_path t c step digit fn tn st, PathInv r := by
  intro r hr
  unfold update_ivr_path at hr
  simp only [List.mem_map] at hr
  obtain ⟨r0, hr0, hr0eq⟩ := hr
  by_cases hmatch : r0.call_sid = c
  · subst hr0eq; simp only [if_pos hmatch]; exact pathInv_recompute r0
  · subst hr0eq; simp only [if_neg hmatch]
    split at hr0
    · simp only [List.mem_map] at hr0
      obtain ⟨r1, hr1, hr1eq⟩ := hr0
      by_cases h1 : r1.call_sid = c
      · exfalso
        apply hmatch
        rw [← hr1eq]
        simp [if_pos h1, setChoice_call_sid, h1]
      · rw [← hr1eq, if_neg h1]
        exact h r1 hr1
    · rcases List.mem_append.mp hr0 with h1 | h1
      · exact h r0 h1
      · exfalso
        apply hmatch
        simp only [List.mem_singleton] at h1
        rw [h1]
        rfl

/-- C1: after any sequence of `upsert_step` calls (both branches), every
stored record's `complete_path` is exactly the join of the 5 choice
fields, in the fixed order language-state-service-model-hp, with unset
choices as empty segments. -/
theorem complete_path_always_derived (es : List Event) :
    ∀ r ∈ applyEvents es [], PathInv r := by
  suffices h : ∀ (es : List Event) (st : List PathRecord),
      (∀ r ∈ st, PathInv r) → ∀ r ∈ applyEvents es st, PathInv r by
    exact h es [] (by simp)
  intro es
  induction es with
  | nil => intro st h r hr; exact h r hr
  | cons e es ih =>
    intro st h r hr
    exact ih (applyEvent st e)
      (pathInv_update e.t e.call_sid e.step_name e.digits e.from_number e.to_number st h)
      r hr

/-- Witness for C1 at a concrete event sequence. -/
theorem complete_path_always_derived_witness :
    PathInv { call_sid := "C1", from_number := none, to_number := none,
              language_choice := some "1", state_choice := none, service_choice := none,
              model_choice := none, hp_choice := none,
              complete_path := some "1----", timestamp := 0 } :=
  complete_path_always_derived
    [{ t := 0, call_sid := "C1", step_name := "language", digits := some "1",
       from_number := none, to_number := none }] _ (by decide)

/-- C6: a webhook request without a `CallSid` is rejected (400) and
causes no store mutation at all: the state afterwards is identical. -/
theorem missing_call_id_no_mutation (t : Nat) (step : String)
    (digit fn tn circle : Option String) (st : Store) :
    ivr_webhook t step none digit fn tn circle st = (st, false) := rfl

/-- C3 counterexample: decoding `"1-1-1--"` does not give
`"Hindi → Rajasthan → Sell Machine"` — the code appends a fourth
fallback token `Model-` for the empty position-3 segment. -/
theorem round_trip_label_cex :
    get_ivr_label (some "1-1-1--") ≠ "Hindi → Rajasthan → Sell Machine" := by decide

/-- C3 amended: a record with language = state = service = `"1"` stores
`complete_path = "1-1-1--"`, and `decode_label` on that path returns
`"Hindi → Rajasthan → Sell Machine → Model-"` (the empty model segment
produces a fallback token instead of stopping). -/
theorem round_trip_111 :
    (applyEvents
      [{ t := 0, call_sid := "C1", step_name := "language", digits := some "1",
         from_number := none, to_number := none },
       { t := 1, call_sid := "C1", step_name := "state", digits := some "1",
         from_number := none, to_number := none },
       { t := 2, call_sid := "C1", step_name := "service", digits := some "1",
         from_number := none, to_number := none }] []).map (fun r => r.complete_path)
      = [some "1-1-1--"] ∧
    get_ivr_label (some "1-1-1--") = "Hindi → Rajasthan → Sell Machine → Model-" := by
  decide

/-- C4 counterexample: for the path with language and model set but
state unset, decoding does not truncate after the language token — the
code yields `"Hindi → State- → Service-"`, three tokens, not one. -/
theorem decode_truncation_cex :
    get_ivr_label (some "1---2-") ≠ "Hindi" ∧
    get_ivr_label (some "1---2-") = "Hindi → State- → Service-" := by decide

/-- C5 counterexample: an event with the unknown step name `"bogus"` is
not rejected — it is persisted: the raw event log gains a row and a
path record is created, so the store state changes. -/
theorem invalid_step_persists_cex :
    (ivr_webhook 0 "bogus" (some "C1") (some "5") none none none emptyStore).2 = true ∧
    (ivr_webhook 0 "bogus" (some "C1") (some "5") none none none emptyStore).1 ≠ emptyStore := by
  decide

/-! ### Branch characterisations of `update_ivr_path` -/

lemma hasCall_iff (c : String) (st : List PathRecord) :
    hasCall c st = true ↔ ∃ r ∈ st, r.call_sid = c := by
  simp [hasCall]

lemma hasCall_false_iff (c : String) (st : List PathRecord) :
    hasCall c st = false ↔ ∀ r ∈ st, r.call_sid ≠ c := by
  simp [hasCall]

/-- On the update branch, `update_ivr_path` maps each matching row to
choice-update-then-recompute and leaves the rest alone. -/
lemma update_hasCall_eq (t : Nat) (c step : String) (digit fn tn : Option String)
    (st : List PathRecord) (h : hasCall c st = true) :
    update_ivr_path t c step digit fn tn st
      = st.map (fun r =>
          if r.call_sid = c then recompute (setChoice step (cleanDigit digit) r) else r) := by
  unfold update_ivr_path
  rw [if_pos h, List.map_map]
  apply List.map_congr_left
  intro r _
  by_cases hr : r.call_sid = c
  · simp [Function.comp, hr, setChoice_call_sid]
  · simp [Function.comp, hr]

/-- On the create branch, `update_ivr_path` appends one fresh record
(with its `complete_path` filled in) and leaves every other row alone. -/
lemma update_noCall_eq (t : Nat) (c step : String) (digit fn tn : Option String)
    (st : List PathRecord) (h : hasCall c st = false) :
    update_ivr_path t c step digit fn tn st
      = st ++ [recompute (freshRecord t c step (cleanDigit digit) fn tn)] := by
  unfold update_ivr_path
  rw [if_neg (by simp [h]), List.map_append]
  congr 1
  · have hnone := (hasCall_false_iff c st).mp h
    calc st.map (fun r => if r.call_sid = c then recompute r else r)
        = st.map id := by
          apply List.map_congr_left
          intro r hr
          simp [hnone r hr]
      _ = st := List.map_id st
  · have hc : (freshRecord t c step (cleanDigit digit) fn tn).call_sid = c := rfl
    simp [hc]

/-! ### Idempotence lemmas -/

lemma setChoice_setChoice (s : String) (d : Option String) (r : PathRecord) :
    setChoice s d (setChoice s d r) = setChoice s d r := by
  unfold setChoice
  split_ifs <;> rfl

lemma setChoice_fix_recompute (s : String) (d : Option String) (r : PathRecord)
    (h : setChoice s d r = r) : setChoice s d (recompute r) = recompute r := by
  cases r
  unfold setChoice at h ⊢
  split_ifs at h ⊢ <;> simp_all [recompute, completePathOf, coalesce]

lemma recompute_setChoice_idem (s : String) (d : Option String) (r : PathRecord) :
    recompute (setChoice s d (recompute (setChoice s d r)))
      = recompute (setChoice s d r) := by
  rw [setChoice_fix_recompute s d (setChoice s d r) (setChoice_setChoice s d r),
      recompute_recompute]

lemma setChoice_fresh (t : Nat) (c step : String) (d fn tn : Option String) :
    setChoice step d (freshRecord t c step d fn tn) = freshRecord t c step d fn tn := by
  unfold setChoice freshRecord
  split_ifs <;> simp_all

/-- C7: applying the same `(call_id, step, digit)` event twice through
`upsert_step` leaves exactly the store that one application produces —
every choice field, `complete_path`, and in fact the whole record set
are identical. -/
theorem upsert_idempotent (t t' : Nat) (c step : String) (digit fn tn : Option String)
    (st : List PathRecord) :
    update_ivr_path t' c step digit fn tn (update_ivr_path t c step digit fn tn st)
      = update_ivr_path t c step digit fn tn st := by
  by_cases h : hasCall c st = true
  · rw [update_hasCall_eq t c step digit fn tn st h]
    have hA : hasCall c (st.map (fun r =>
        if r.call_sid = c then recompute (setChoice step (cleanDigit digit) r) else r))
        = true := by
      rw [hasCall_iff]
      obtain ⟨r, hr, hrc⟩ := (hasCall_iff c st).mp h
      refine ⟨_, List.mem_map_of_mem _ hr, ?_⟩
      simp [hrc, recompute_call_sid, setChoice_call_sid]
    rw [update_hasCall_eq t' c step digit fn tn _ hA, List.map_map]
    apply List.map_congr_left
    intro r _
    by_cases hr : r.call_sid = c
    · simp only [Function.comp, hr, if_true, recompute_call_sid, setChoice_call_sid, if_pos]
      exact recompute_setChoice_idem step (cleanDigit digit) r
    · simp [Function.comp, hr]
  · have h' : hasCall c st = false := by simpa using h
    rw [update_noCall_eq t c step digit fn tn st h']
    have hA : hasCall c (st ++ [recompute (freshRecord t c step (cleanDigit digit) fn tn)])
        = true := by
      rw [hasCall_iff]
      exact ⟨_, List.mem_append_right _ (List.mem_singleton_self _), rfl⟩
    rw [update_hasCall_eq t' c step digit fn tn _ hA, List.map_append]
    congr 1
    · have hnone := (hasCall_false_iff c st).mp h'
      calc st.map (fun r =>
              if r.call_sid = c then recompute (setChoice step (cleanDigit digit) r) else r)
          = st.map id := by
            apply List.map_congr_left
            intro r hr
            simp [hnone r hr]
        _ = st := List.map_id st
    · have hc : (recompute (freshRecord t c step (cleanDigit digit) fn tn)).call_sid = c := rfl
      simp only [List.map_cons, List.map_nil, hc, if_pos]
      rw [setChoice_fix_recompute _ _ _ (setChoice_fresh t c step (cleanDigit digit) fn tn),
          recompute_recompute]

/-! ### Unknown step names -/

lemma setChoice_invalid (step : String) (hstep : step ∉ stepNames)
    (d : Option String) (r : PathRecord) : setChoice step d r = r := by
  simp only [stepNames, List.mem_cons, List.not_mem_nil, or_false, not_or] at hstep
  obtain ⟨h1, h2, h3, h4, h5⟩ := hstep
  simp [setChoice, h1, h2, h3, h4, h5]

lemma freshRecord_invalid (t : Nat) (c step : String) (hstep : step ∉ stepNames)
    (d fn tn : Option String) :
    freshRecord t c step d fn tn
      = { call_sid := c, from_number := fn, to_number := tn,
          language_choice := none, state_choice := none, service_choice := none,
          model_choice := none, hp_choice := none,
          complete_path := none, timestamp := t } := by
  simp only [stepNames, List.mem_cons, List.not_mem_nil, or_false, not_or] at hstep
  obtain ⟨h1, h2, h3, h4, h5⟩ := hstep
  simp [freshRecord, h1, h2, h3, h4, h5]

/-- C5 amended: for any request with a non-empty `CallSid`, an event
whose `step_name` is not one of the 5 defined steps is not rejected —
the handler still returns success and persists it: the raw event-log
row is always appended; if the call has no path record yet, a record
with every choice unset and `complete_path` `"----"` is created; if a
record exists, its choice fields are left unchanged (only
`complete_path` is re-derived, to the same value). -/
theorem invalid_step_accepted (t : Nat) (step c : String)
    (digit fn tn circle : Option String) (st : Store)
    (hstep : step ∉ stepNames) (hc : c ≠ "") :
    ((ivr_webhook t step (some c) digit fn tn circle st).2 = true) ∧
    ((ivr_webhook t step (some c) digit fn tn circle st).1.inputs
        = st.inputs ++ [{ call_sid := c, from_number := fn, to_number := tn,
                          step_name := step, digit_input := cleanDigit digit,
                          exophone := tn, caller_circle := circle }]) ∧
    (hasCall c st.paths = false →
      (ivr_webhook t step (some c) digit fn tn circle st).1.paths
        = st.paths ++ [{ call_sid := c, from_number := fn, to_number := tn,
                         language_choice := none, state_choice := none,
                         service_choice := none, model_choice := none, hp_choice := none,
                         complete_path := some "----", timestamp := t }]) ∧
    (hasCall c st.paths = true →
      (ivr_webhook t step (some c) digit fn tn circle st).1.paths
        = st.paths.map (fun r => if r.call_sid = c then recompute r else r)) := by
  have hmain : ivr_webhook t step (some c) digit fn tn circle st
      = ({ inputs := store_ivr_input c step digit fn tn tn circle st.inputs,
           paths := update_ivr_path t c step digit fn tn st.paths }, true) := by
    simp [ivr_webhook, hc]
  refine ⟨by rw [hmain], by rw [hmain]; rfl, ?_, ?_⟩
  · intro h
    rw [hmain]
    show update_ivr_path t c step digit fn tn st.paths = _
    rw [update_noCall_eq t c step digit fn tn st.paths h,
        freshRecord_invalid t c step hstep (cleanDigit digit) fn tn]
    rfl
  · intro h
    rw [hmain]
    show update_ivr_path t c step digit fn tn st.paths = _
    rw [update_hasCall_eq t c step digit fn tn st.paths h]
    apply List.map_congr_left
    intro r _
    rw [setChoice_invalid step hstep (cleanDigit digit) r]

/-- Witness for the amended C5 at a concrete unknown step. -/
theorem invalid_step_accepted_witness :
    "bogus" ∉ stepNames ∧ "C9" ≠ "" ∧
    (ivr_webhook 3 "bogus" (some "C9") (some "7") none none none emptyStore).1.paths
      = [{ call_sid := "C9", from_number := none, to_number := none,
           language_choice := none, state_choice := none, service_choice := none,
           model_choice := none, hp_choice := none,
           complete_path := some "----", timestamp := 3 }] :=
  ⟨by decide, by decide, by
    have h := (invalid_step_accepted 3 "bogus" "C9" (some "7") none none none emptyStore
      (by decide) (by decide)).2.2.1
    simpa [emptyStore] using h rfl⟩

/-! ### Timestamps -/

/-- C9 amended: `upsert_step` sets a record's timestamp only on the
create branch (to that mutation's time); the update branch leaves every
existing record's timestamp unchanged — the stored time is the creation
time, and there is no `updated_at` column. -/
theorem timestamp_creation_only (t : Nat) (c step : String) (digit fn tn : Option String)
    (st : List PathRecord) :
    (update_ivr_path t c step digit fn tn st).map (fun r => r.timestamp)
      = if hasCall c st then st.map (fun r => r.timestamp)
        else st.map (fun r => r.timestamp) ++ [t] := by
  by_cases h : hasCall c st = true
  · rw [update_hasCall_eq t c step digit fn tn st h, if_pos h, List.map_map]
    apply List.map_congr_left
    intro r _
    by_cases hr : r.call_sid = c <;>
      simp [Function.comp, hr, recompute_timestamp, setChoice_timestamp]
  · have h' : hasCall c st = false := by simpa using h
    rw [update_noCall_eq t c step digit fn tn st h', if_neg h, List.map_append]
    simp [recompute_timestamp, freshRecord]

/-! ### Single-call event folding -/

lemma applyEvent_nil (e : Event) : applyEvent [] e = [recompute (initRecord e)] := by
  rw [applyEvent, update_noCall_eq e.t e.call_sid e.step_name e.digits e.from_number
      e.to_number [] rfl]
  rfl

lemma applyEvent_single (r : PathRecord) (e : Event) (h : r.call_sid = e.call_sid) :
    applyEvent [r] e = [applyToRecord r e] := by
  rw [applyEvent, update_hasCall_eq e.t e.call_sid e.step_name e.digits e.from_number
      e.to_number [r] (by simp [hasCall, h])]
  simp [h, applyToRecord]

lemma applyEvents_single (c : String) (es : List Event) (r : PathRecord)
    (hr : r.call_sid = c) (hc : ∀ e ∈ es, e.call_sid = c) :
    applyEvents es [r] = [es.foldl applyToRecord r] := by
  induction es generalizing r with
  | nil => rfl
  | cons e es ih =>
    have he : e.call_sid = c := hc e (List.mem_cons_self e es)
    have h1 : applyEvents (e :: es) [r] = applyEvents es (applyEvent [r] e) := rfl
    rw [h1, applyEvent_single r e (hr.trans he.symm),
        ih (applyToRecord r e) (by rw [applyToRecord_call_sid]; exact hr)
          (fun x hx => hc x (List.mem_cons_of_mem e hx))]
    rfl

lemma getChoice_recompute (s : String) (r : PathRecord) :
    getChoice s (recompute r) = getChoice s r := by
  unfold getChoice; split_ifs <;> rfl

lemma getChoice_language (r : PathRecord) :
    getChoice "language" r = r.language_choice := rfl

lemma getChoice_state (r : PathRecord) :
    getChoice "state" r = r.state_choice := rfl

lemma getChoice_service (r : PathRecord) :
    getChoice "service" r = r.service_choice := rfl

lemma getChoice_model (r : PathRecord) :
    getChoice "model" r = r.model_choice := rfl

lemma getChoice_hp (r : PathRecord) :
    getChoice "hp" r = r.hp_choice := rfl

lemma getChoice_setChoice (s s' : String) (hs : s ∈ stepNames) (d : Option String)
    (r : PathRecord) :
    getChoice s (setChoice s' d r) = if s' = s then d else getChoice s r := by
  simp only [stepNames, List.mem_cons, List.not_mem_nil, or_false] at hs
  rcases hs with rfl | rfl | rfl | rfl | rfl <;>
    simp only [getChoice_language, getChoice_state, getChoice_service,
      getChoice_model, getChoice_hp] <;>
    (unfold setChoice; split_ifs <;> simp_all)

lemma getChoice_applyToRecord (s : String) (hs : s ∈ stepNames) (r : PathRecord) (e : Event) :
    getChoice s (applyToRecord r e)
      = if e.step_name = s then cleanDigit e.digits else getChoice s r := by
  rw [applyToRecord, getChoice_recompute, getChoice_setChoice s e.step_name hs]

lemma getChoice_foldl (s : String) (hs : s ∈ stepNames) (es : List Event) (r : PathRecord) :
    getChoice s (es.foldl applyToRecord r)
      = match lastEventFor s es with
        | some e => cleanDigit e.digits
        | none => getChoice s r := by
  induction es generalizing r with
  | nil => rfl
  | cons e es ih =>
    rw [List.foldl_cons, ih (applyToRecord r e), lastEventFor]
    cases h : lastEventFor s es with
    | some e' => simp
    | none =>
      simp only
      rw [getChoice_applyToRecord s hs]
      split_ifs with hstep <;> simp

lemma getChoice_init (s : String) (hs : s ∈ stepNames) (e : Event) :
    getChoice s (initRecord e) = if e.step_name = s then cleanDigit e.digits else none := by
  simp only [stepNames, List.mem_cons, List.not_mem_nil, or_false] at hs
  rcases hs with rfl | rfl | rfl | rfl | rfl <;> simp [getChoice, initRecord, freshRecord]

lemma pathInv_foldl (es : List Event) (r : PathRecord) (h : PathInv r) :
    PathInv (es.foldl applyToRecord r) := by
  induction es generalizing r with
  | nil => exact h
  | cons e es ih =>
    rw [List.foldl_cons]
    exact ih _ (pathInv_recompute _)

lemma foldl_call_sid (es : List Event) (r : PathRecord) :
    (es.foldl applyToRecord r).call_sid = r.call_sid := by
  induction es generalizing r with
  | nil => rfl
  | cons e es ih => rw [List.foldl_cons, ih, applyToRecord_call_sid]

lemma completePathOf_getChoice (r : PathRecord) :
    completePathOf r
      = coalesce (getChoice "language" r) ++ "-" ++ coalesce (getChoice "state" r) ++ "-" ++
        coalesce (getChoice "service" r) ++ "-" ++ coalesce (getChoice "model" r) ++ "-" ++
        coalesce (getChoice "hp" r) := rfl

lemma getChoice_final (s : String) (hs : s ∈ stepNames) (e : Event) (rest : List Event) :
    getChoice s (rest.foldl applyToRecord (recompute (initRecord e)))
      = lastDigit s (e :: rest) := by
  rw [getChoice_foldl s hs, lastDigit, lastEventFor]
  cases h : lastEventFor s rest with
  | some e' => simp
  | none =>
    simp only
    rw [getChoice_recompute, getChoice_init s hs]
    split_ifs with hstep <;> simp

/-- The store state after a nonempty run of events for one call is a
single record whose choices are the last-written digits and whose
`complete_path` is their join. -/
lemma finalCompletePath_eq_joinLast (c : String) (es : List Event)
    (hne : es ≠ []) (hc : ∀ e ∈ es, e.call_sid = c) :
    finalCompletePath c es = some (some (joinLast es)) := by
  cases es with
  | nil => exact absurd rfl hne
  | cons e rest =>
    have hec : e.call_sid = c := hc e (List.mem_cons_self e rest)
    have hrest : ∀ x ∈ rest, x.call_sid = c := fun x hx => hc x (List.mem_cons_of_mem e hx)
    have h1 : applyEvents (e :: rest) [] = applyEvents rest [recompute (initRecord e)] := by
      have : applyEvents (e :: rest) [] = applyEvents rest (applyEvent [] e) := rfl
      rw [this, applyEvent_nil]
    rw [finalCompletePath, h1,
        applyEvents_single c rest (recompute (initRecord e))
          (by rw [recompute_call_sid]; exact hec) hrest]
    have hRc : (rest.foldl applyToRecord (recompute (initRecord e))).call_sid = c := by
      rw [foldl_call_sid, recompute_call_sid]; exact hec
    rw [List.find?_cons_of_pos _ (by simp [hRc]), Option.map_some']
    have hinv : PathInv (rest.foldl applyToRecord (recompute (initRecord e))) :=
      pathInv_foldl rest _ (pathInv_recompute _)
    rw [hinv]
    have hjoin : completePathOf (rest.foldl applyToRecord (recompute (initRecord e)))
        = joinLast (e :: rest) := by
      rw [completePathOf_getChoice,
          getChoice_final "language" (by decide) e rest,
          getChoice_final "state" (by decide) e rest,
          getChoice_final "service" (by decide) e rest,
          getChoice_final "model" (by decide) e rest,
          getChoice_final "hp" (by decide) e rest]
      rfl
    rw [hjoin]

/-! ### Last-write characterisation and order independence -/

lemma lastEventFor_mem (s : String) (es : List Event) (e : Event)
    (h : lastEventFor s es = some e) : e ∈ es ∧ e.step_name = s := by
  induction es with
  | nil => cases h
  | cons a l ih =>
    rw [lastEventFor] at h
    cases h' : lastEventFor s l with
    | some e' =>
      rw [h'] at h
      cases h
      exact ⟨List.mem_cons_of_mem a (ih h').1, (ih h').2⟩
    | none =>
      rw [h'] at h
      split_ifs at h with ha
      · injection h with h2
        subst h2
        exact ⟨List.mem_cons_self a l, ha⟩

lemma lastEventFor_none (s : String) (es : List Event)
    (h : ∀ e ∈ es, e.step_name ≠ s) : lastEventFor s es = none := by
  induction es with
  | nil => rfl
  | cons a l ih =>
    rw [lastEventFor, ih (fun e he => h e (List.mem_cons_of_mem a he)),
        if_neg (h a (List.mem_cons_self a l))]

lemma lastEventFor_unique (s : String) (es : List Event) (e : Event)
    (hd : es.Pairwise (fun a b => a.step_name ≠ b.step_name))
    (he : e ∈ es) (hes : e.step_name = s) : lastEventFor s es = some e := by
  induction es with
  | nil => cases he
  | cons a l ih =>
    rw [List.pairwise_cons] at hd
    rw [lastEventFor]
    rcases List.mem_cons.mp he with rfl | hel
    · rw [lastEventFor_none s l (fun x hx hxs => (hd.1 x hx) (hes.trans hxs.symm)),
          if_pos hes]
    · rw [ih hd.2 hel]

lemma joinLast_perm (es es' : List Event) (hperm : es'.Perm es)
    (hdist : es.Pairwise (fun a b => a.step_name ≠ b.step_name)) :
    joinLast es' = joinLast es := by
  have hdist' : es'.Pairwise (fun a b => a.step_name ≠ b.step_name) :=
    (hperm.pairwise_iff (fun h => Ne.symm h)).mpr hdist
  suffices h : ∀ s, lastDigit s es' = lastDigit s es by
    rw [joinLast, joinLast, h, h, h, h, h]
  intro s
  rw [lastDigit, lastDigit]
  cases h : lastEventFor s es with
  | none =>
    have hall : ∀ e ∈ es, e.step_name ≠ s := by
      intro e he hes
      have := lastEventFor_unique s es e hdist he hes
      rw [h] at this
      cases this
    rw [lastEventFor_none s es' (fun e he => hall e (hperm.subset he))]
  | some e =>
    obtain ⟨hm, hstep⟩ := lastEventFor_mem s es e h
    rw [lastEventFor_unique s es' e hdist' (hperm.mem_iff.mpr hm) hstep]

/-- C2: for a call's valid step events, the final `complete_path` is
the join of the supplied digits, each at its step's fixed position,
where a repeated step stores the last-applied event's digit; and when
the steps are pairwise distinct, every arrival order (permutation)
yields that same final `complete_path`. -/
theorem upsert_order_independent (c : String) (es : List Event)
    (hne : es ≠ [])
    (hval : ∀ e ∈ es, e.call_sid = c ∧ e.step_name ∈ stepNames) :
    finalCompletePath c es = some (some (joinLast es)) ∧
    (es.Pairwise (fun a b => a.step_name ≠ b.step_name) →
      ∀ es', es'.Perm es → finalCompletePath c es' = some (some (joinLast es))) := by
  refine ⟨finalCompletePath_eq_joinLast c es hne (fun e he => (hval e he).1), ?_⟩
  intro hdist es' hperm
  have hne' : es' ≠ [] := by
    intro h
    subst h
    exact hne (hperm.symm.eq_nil)
  rw [finalCompletePath_eq_joinLast c es' hne' (fun e he => (hval e (hperm.subset he)).1),
      joinLast_perm es es' hperm hdist]

/-- Witness for C2 at a concrete two-event run applied in both orders. -/
theorem upsert_order_independent_witness :
    finalCompletePath "C1"
      [{ t := 1, call_sid := "C1", step_name := "state", digits := some "2",
         from_number := none, to_number := none },
       { t := 0, call_sid := "C1", step_name := "language", digits := some "1",
         from_number := none, to_number := none }]
      = some (some (joinLast
        [{ t := 0, call_sid := "C1", step_name := "language", digits := some "1",
           from_number := none, to_number := none },
         { t := 1, call_sid := "C1", step_name := "state", digits := some "2",
           from_number := none, to_number := none }])) :=
  (upsert_order_independent "C1"
    [{ t := 0, call_sid := "C1", step_name := "language", digits := some "1",
       from_number := none, to_number := none },
     { t := 1, call_sid := "C1", step_name := "state", digits := some "2",
       from_number := none, to_number := none }]
    (by decide) (by decide)).2 (by decide)
    [{ t := 1, call_sid := "C1", step_name := "state", digits := some "2",
       from_number := none, to_number := none },
     { t := 0, call_sid := "C1", step_name := "language", digits := some "1",
       from_number := none, to_number := none }]
    (by decide)

/-- C9 counterexample: after a second event at time 1 for an existing
call, the stored record's timestamp is still the creation time 0 — it
does not reflect the last mutation (there is no `updated_at` column). -/
theorem updated_at_cex :
    (applyEvents
      [{ t := 0, call_sid := "C1", step_name := "language", digits := some "1",
         from_number := none, to_number := none },
       { t := 1, call_sid := "C1", step_name := "state", digits := some "2",
         from_number := none, to_number := none }] []).map (fun r => r.timestamp)
      = [0] ∧ (0 : Nat) ≠ 1 := by decide

/-! ### Decoding does not stop at empty segments -/

lemma ivrLabels_length (parts : List String) :
    (ivrLabels parts).length
      = min parts.length 3
        + (if 4 ≤ parts.length ∧ (parts.getD 2 "" = "2" ∨ parts.getD 2 "" = "1" ∨
              parts.getD 2 "" = "4") then 1 else 0)
        + (if 5 ≤ parts.length ∧ parts.getD 2 "" = "2" ∧ parts.getD 3 "" = "1"
           then 1 else 0) := by
  unfold ivrLabels
  simp only [List.length_append, apply_ite (List.length (α := String)),
    List.length_singleton, List.length_nil]
  split_ifs <;> first | omega | tauto

/-- C4 amended: `decode_label` does not stop at an empty segment — it
emits one token per split segment for the first three positions (with
fallback labels like `State-` for empty or unknown digits), plus a
fourth token exactly when there are at least 4 segments and segment 2
is `"2"`, `"1"` or `"4"`, plus a fifth exactly when there are at least
5 segments, segment 2 is `"2"` and segment 3 is `"1"`.  The token count
is therefore independent of whether leading segments are empty. -/
theorem decode_no_early_stop (p : String) (hp : p ≠ "") :
    get_ivr_label (some p) = joinArrow (ivrLabels (pySplit (Char.ofNat 45) p)) ∧
    (ivrLabels (pySplit (Char.ofNat 45) p)).length
      = min (pySplit (Char.ofNat 45) p).length 3
        + (if 4 ≤ (pySplit (Char.ofNat 45) p).length ∧
              ((pySplit (Char.ofNat 45) p).getD 2 "" = "2" ∨
               (pySplit (Char.ofNat 45) p).getD 2 "" = "1" ∨
               (pySplit (Char.ofNat 45) p).getD 2 "" = "4") then 1 else 0)
        + (if 5 ≤ (pySplit (Char.ofNat 45) p).length ∧
              (pySplit (Char.ofNat 45) p).getD 2 "" = "2" ∧
              (pySplit (Char.ofNat 45) p).getD 3 "" = "1" then 1 else 0) := by
  refine ⟨?_, ivrLabels_length _⟩
  simp [get_ivr_label, hp]

/-- Witness for the amended C4: `"1---2-"` (language and model set,
state unset) decodes to three tokens, not one. -/
theorem decode_no_early_stop_witness :
    "1---2-" ≠ "" ∧ (ivrLabels (pySplit (Char.ofNat 45) "1---2-")).length = 3 := by
  refine ⟨by decide, ?_⟩
  rw [(decode_no_early_stop "1---2-" (by decide)).2]
  decide

/-! ### Call/IVR merge -/

lemma rowsFor_of_no_match {α : Type} (c : CallRow α) (paths : List PathRecord)
    (h : paths.filter (fun r => decide (r.call_sid = c.CallSid)) = []) :
    rowsFor c paths = [mergeRow c none] := by
  unfold rowsFor
  rw [h]

lemma mem_rowsFor {α : Type} (c : CallRow α) (paths : List PathRecord) (r : PathRecord)
    (h : r ∈ paths.filter (fun r => decide (r.call_sid = c.CallSid))) :
    mergeRow c (some r) ∈ rowsFor c paths := by
  unfold rowsFor
  cases hf : paths.filter (fun r => decide (r.call_sid = c.CallSid)) with
  | nil => rw [hf] at h; cases h
  | cons a l =>
    rw [hf] at h
    exact List.mem_map_of_mem _ h

/-- C8: in the merged row set, a call with no matching path record gets
an absent (`none`) selections sequence, while a matched record with all
5 choices unset gets the empty sequence (`some []`); in general a
matched record's selections are exactly its set choice values in
step-position order. -/
theorem merge_absent_vs_empty {α : Type} (calls : List (CallRow α)) (c : CallRow α)
    (paths : List PathRecord) :
    (c ∈ calls → (∀ r ∈ paths, r.call_sid ≠ c.CallSid) →
      ({ CallSid := c.CallSid, data := c.data, IVRPath := none, IVRSelections := none }
        : MergedRow α) ∈ merge_with_call_data calls paths) ∧
    (c ∈ calls → ∀ r ∈ paths, r.call_sid = c.CallSid →
      mergeRow c (some r) ∈ merge_with_call_data calls paths) ∧
    (∀ r : PathRecord, PathInv r →
      r.language_choice = none → r.state_choice = none → r.service_choice = none →
      r.model_choice = none → r.hp_choice = none →
      (mergeRow c (some r)).IVRSelections = some []) ∧
    (∀ r : PathRecord, PathInv r →
      (mergeRow c (some r)).IVRSelections
        = some ([r.language_choice, r.state_choice, r.service_choice,
                 r.model_choice, r.hp_choice].filterMap id)) := by
  refine ⟨?_, ?_, ?_, ?_⟩
  · intro hc hno
    unfold merge_with_call_data
    split_ifs with hpaths
    · exact List.mem_map_of_mem _ hc
    · rw [List.mem_flatMap]
      refine ⟨c, hc, ?_⟩
      rw [rowsFor_of_no_match c paths
          (List.filter_eq_nil_iff.mpr (fun r hr => by simp [hno r hr]))]
      exact List.mem_singleton_self _
  · intro hc r hr hrc
    unfold merge_with_call_data
    rw [if_neg (List.ne_nil_of_mem hr), List.mem_flatMap]
    exact ⟨c, hc, mem_rowsFor c paths r (List.mem_filter.mpr ⟨hr, by simp [hrc]⟩)⟩
  · intro r hinv h1 h2 h3 h4 h5
    rw [PathInv] at hinv
    simp [mergeRow, hinv, selectionsOf, h1, h2, h3, h4, h5]
  · intro r hinv
    rw [PathInv] at hinv
    simp [mergeRow, hinv, selectionsOf]

/-- Witness for C8: one call with no matching record gets absent
selections; an all-unset record merges to the empty selections list. -/
theorem merge_absent_vs_empty_witness :
    (({ CallSid := "A", data := 0, IVRPath := none, IVRSelections := none }
        : MergedRow Nat)
      ∈ merge_with_call_data [{ CallSid := "A", data := (0 : Nat) }]
          [{ call_sid := "B", from_number := none, to_number := none,
             language_choice := none, state_choice := none, service_choice := none,
             model_choice := none, hp_choice := none,
             complete_path := some "----", timestamp := 0 }]) ∧
    (mergeRow { CallSid := "A", data := (0 : Nat) }
        (some { call_sid := "B", from_number := none, to_number := none,
                language_choice := none, state_choice := none, service_choice := none,
                model_choice := none, hp_choice := none,
                complete_path := some "----", timestamp := 0 })).IVRSelections
      = some [] := by
  have h := merge_absent_vs_empty [{ CallSid := "A", data := (0 : Nat) }]
    { CallSid := "A", data := (0 : Nat) }
    [{ call_sid := "B", from_number := none, to_number := none,
       language_choice := none, state_choice := none, service_choice := none,
       model_choice := none, hp_choice := none,
       complete_path := some "----", timestamp := 0 }]
  exact ⟨h.1 (by decide) (by decide), h.2.2.1 _ (by decide) rfl rfl rfl rfl rfl⟩

/-! ### Merge is a per-call frame operation -/

lemma filter_key_length_le_one (paths : List PathRecord) (K : String)
    (hkeys : (paths.map (fun r => r.call_sid)).Nodup) :
    (paths.filter (fun r => decide (r.call_sid = K))).length ≤ 1 := by
  induction paths with
  | nil => simp
  | cons a l ih =>
    rw [List.map_cons, List.nodup_cons] at hkeys
    rw [List.filter_cons]
    split_ifs with ha
    · have ha' : a.call_sid = K := of_decide_eq_true ha
      have hnil : l.filter (fun r => decide (r.call_sid = K)) = [] := by
        refine List.filter_eq_nil_iff.mpr (fun r hr => ?_)
        simp only [decide_eq_true_eq]
        intro hrK
        apply hkeys.1
        rw [ha', ← hrK]
        exact List.mem_map_of_mem _ hr
      rw [hnil]
      simp
    · simpa using ih hkeys.2

lemma rowsFor_map_proj {α : Type} (c : CallRow α) (paths : List PathRecord)
    (hkeys : (paths.map (fun r => r.call_sid)).Nodup) :
    (rowsFor c paths).map (fun m => (m.CallSid, m.data)) = [(c.CallSid, c.data)] := by
  unfold rowsFor
  cases hf : paths.filter (fun r => decide (r.call_sid = c.CallSid)) with
  | nil => rfl
  | cons a l =>
    have hlen := filter_key_length_le_one paths c.CallSid hkeys
    rw [hf] at hlen
    cases l with
    | nil => rfl
    | cons b l2 => simp at hlen

/-- C10: the call/path merge returns exactly one output row per input
call row (the path table being unique-keyed on `call_sid`), keeps every
call row's own values unchanged and in order, and only adds the two
derived columns. -/
theorem merge_one_row_per_call {α : Type} (calls : List (CallRow α))
    (paths : List PathRecord)
    (hne : calls ≠ [])
    (hkeys : (paths.map (fun r => r.call_sid)).Nodup) :
    (merge_with_call_data calls paths).length = calls.length ∧
    (merge_with_call_data calls paths).map (fun m => (m.CallSid, m.data))
      = calls.map (fun c => (c.CallSid, c.data)) := by
  have key : (merge_with_call_data calls paths).map (fun m => (m.CallSid, m.data))
      = calls.map (fun c => (c.CallSid, c.data)) := by
    clear hne
    unfold merge_with_call_data
    split_ifs with hp
    · rw [List.map_map]
      apply List.map_congr_left
      intro c _
      rfl
    · induction calls with
      | nil => rfl
      | cons c cs ih =>
        rw [List.flatMap_cons, List.map_append, rowsFor_map_proj c paths hkeys, ih,
            List.map_cons]
        rfl
  refine ⟨?_, key⟩
  have hlen := congrArg List.length key
  simpa using hlen

/-- Witness for C10 on two calls and a one-record path table. -/
theorem merge_one_row_per_call_witness :
    (merge_with_call_data
        [{ CallSid := "A", data := (0 : Nat) }, { CallSid := "B", data := (1 : Nat) }]
        [{ call_sid := "A", from_number := none, to_number := none,
           language_choice := some "1", state_choice := none, service_choice := none,
           model_choice := none, hp_choice := none,
           complete_path := some "1----", timestamp := 0 }]).length = 2 ∧
    (merge_with_call_data
        [{ CallSid := "A", data := (0 : Nat) }, { CallSid := "B", data := (1 : Nat) }]
        [{ call_sid := "A", from_number := none, to_number := none,
           language_choice := some "1", state_choice := none, service_choice := none,
           model_choice := none, hp_choice := none,
           complete_path := some "1----", timestamp := 0 }]).map
        (fun m => (m.CallSid, m.data))
      = [("A", 0), ("B", 1)] := by
  have h := merge_one_row_per_call
    [{ CallSid := "A", data := (0 : Nat) }, { CallSid := "B", data := (1 : Nat) }]
    [{ call_sid := "A", from_number := none, to_number := none,
       language_choice := some "1", state_choice := none, service_choice := none,
       model_choice := none, hp_choice := none,
       complete_path := some "1----", timestamp := 0 }]
    (by decide) (by decide)
  exact ⟨h.1, h.2⟩

end RMotors
